import Mathlib

/-!
Shallow embedding of the road_coverage repository's core algorithms:
the trace reconciler in src/coverage/way_segments.py and the segment
aggregator in src/db/import_osm_highways.py.

Conventions:
* Python floats are modelled as rationals (ℚ): every operation the code
  performs on them (comparison, addition, division) is order/field
  arithmetic.
* Fallible Python code (IndexError, KeyError, ZeroDivisionError) is
  modelled with Option: `none` is an uncaught exception.  The unbounded
  `while` loop of `_fill_in_missing_segments` additionally takes a fuel
  argument; running out of fuel also yields `none` (divergence).
* The way-segment table loaded from MySQL by `_get_osm_way_segments`
  (a dict from way_id to the way's segment list, ordered by segment_id)
  is modelled as an association list.
-/

namespace RoadCoverage

/-- One edge of a map-matching result (only its `way_id` is used by the
reconciler). -/
structure Edge where
  way_id : Nat
deriving DecidableEq, Repr

/-- One matched trajectory point: index into the edge list plus the
fractional position along that edge. -/
structure MatchPoint where
  edge_index : Nat
  edge_ratio : ℚ
deriving DecidableEq, Repr

/-- A map-matching result: parallel `edges` and `matches` lists (the
`matches` dict key is called `match_points` here). -/
structure MatchResult where
  edges : List Edge
  match_points : List MatchPoint
deriving DecidableEq, Repr

/-- One row of the way_segments table for a way: `length` and cumulative
`ratio` (as selected by `_get_osm_way_segments`). -/
structure WaySegment where
  length : ℚ
  ratio : ℚ
deriving DecidableEq, Repr

/-- The dict from way_id to that way's ordered segment list, modelled as
an association list. -/
abbrev WaySegments := List (Nat × List WaySegment)

/-- Dict lookup `way_segments[w]` / membership `w in way_segments`. -/
def lookupWay (ws : WaySegments) (w : Nat) : Option (List WaySegment) :=
  (ws.find? (fun p => p.1 == w)).map Prod.snd

/-- The comparison `is_less` inside `_is_valid_match_result`:
`(prev[0] < next[0]) or (prev[0] == next[0] and (prev[1] < next[1]))`. -/
def is_less (p q : Nat × ℚ) : Bool :=
  (p.1 < q.1) || (p.1 == q.1 && p.2 < q.2)

/-- `all(...)` over consecutive pairs of a list, as built by the list
comprehension `[is_less(l[i], l[i+1]) for i in range(len(l)-1)]`. -/
def consecAll (f : α → α → Bool) : List α → Bool
  | a :: b :: rest => f a b && consecAll f (b :: rest)
  | _ => true

/-- `_is_valid_match_result`: the `(edge_index, edge_ratio)` keys of the
match points are pairwise `is_less` at each consecutive position. -/
def _is_valid_match_result (mr : MatchResult) : Bool :=
  consecAll is_less (mr.match_points.map fun m => (m.edge_index, m.edge_ratio))

/-- The `for idx, way_segment in enumerate(way_segments)` loop of
`_get_segment_id_by_ratio`, carrying the running index: at the first
segment whose `ratio` exceeds `edge_ratio` it returns `idx - 1`; when the
list is exhausted the counter equals the length, so `idx - 1` is
`len(way_segments) - 1`. -/
def segIdxLoop (edge_ratio : ℚ) : Int → List WaySegment → Int
  | idx, [] => idx - 1
  | idx, s :: rest =>
    if edge_ratio < s.ratio then idx - 1 else segIdxLoop edge_ratio (idx + 1) rest

/-- `_get_segment_id_by_ratio` (note the result is `-1` when already the
first segment's ratio exceeds `edge_ratio`, hence an `Int`). -/
def _get_segment_id_by_ratio (edge_ratio : ℚ) (way_segments : List WaySegment) : Int :=
  segIdxLoop edge_ratio 0 way_segments

/-- `_get_next_way`: scan the edge list for the first edge whose `way_id`
equals `cur_edge_id` and return the following edge's `way_id`.  The outer
`Option` is exception tracking: `none` models the `IndexError` that
`edges[i+1]` raises when the first occurrence is the last edge.  The inner
`Option` is the Python return value: `some none` is `return None`
(reached only when `cur_edge_id` occurs on no edge). -/
def _get_next_way (cur_edge_id : Nat) (edges : List Edge) : Option (Option Nat) :=
  match edges.findIdx? (fun e => e.way_id == cur_edge_id) with
  | some i => (edges.get? (i + 1)).map (fun e => some e.way_id)
  | none => some none

/-- One pass of the `while` loop body of `_fill_in_missing_segments`,
advancing `iter_segment`: increment the segment index; if it now exceeds
the way's last segment index, switch to the next way at index `0`.
`none` models an exception: a `KeyError` when the current way is not a
key of `way_segments`, or the failure inside `_get_next_way`; a rollover
to the `None` way is also `none`, because the loop's next iteration then
raises a `KeyError` on `way_segments[None]` before anything can be
returned. -/
def fillStep (ws : WaySegments) (edges : List Edge) (it : Nat × Int) :
    Option (Nat × Int) :=
  match lookupWay ws it.1 with
  | none => none
  | some segs =>
    if (segs.length : Int) - 1 < it.2 + 1 then
      match _get_next_way it.1 edges with
      | none => none
      | some none => none
      | some (some w) => some (w, 0)
    else some (it.1, it.2 + 1)

/-- The `while` loop of `_fill_in_missing_segments`: starting from
`iter_segment = it`, advance with `fillStep` until the pair equals
`target`, collecting every advanced pair (the appended
`copy.copy(iter_segment)`), `target` itself included.  `fuel` bounds the
number of iterations; exhausting it models divergence of the Python
loop. -/
def fillLoop (ws : WaySegments) (edges : List Edge) (target : Nat × Int) :
    Nat → Nat × Int → Option (List (Nat × Int))
  | 0, _ => none
  | fuel + 1, it =>
    if it = target then some []
    else
      match fillStep ws edges it with
      | none => none
      | some it2 => (fillLoop ws edges target fuel it2).map (it2 :: ·)

/-- The `for segment in travelled_segments` loop of
`_fill_in_missing_segments` after the first element: `cur` is
`cur_segment` and each later `segment` contributes the pairs the `while`
loop appends between them. -/
def fillRunAux (ws : WaySegments) (edges : List Edge) (fuel : Nat) :
    Nat × Int → List (Nat × Int) → Option (List (Nat × Int))
  | _, [] => some []
  | cur, seg :: rest => do
    let filled ← fillLoop ws edges seg fuel cur
    let tail ← fillRunAux ws edges fuel seg rest
    pure (filled ++ tail)

/-- Gap filling of a single run: the first pair is appended as-is
(`cur_segment` is still `None`), every later pair via the `while` loop. -/
def fillRun (ws : WaySegments) (edges : List Edge) (fuel : Nat) :
    List (Nat × Int) → Option (List (Nat × Int))
  | [] => some []
  | first :: rest => (fillRunAux ws edges fuel first rest).map (first :: ·)

/-- `_fill_in_missing_segments`: gap filling applied to every run; an
exception in any run aborts the whole call. -/
def _fill_in_missing_segments (travelled_way_segments : List (List (Nat × Int)))
    (edges : List Edge) (ws : WaySegments) (fuel : Nat) :
    Option (List (List (Nat × Int))) :=
  travelled_way_segments.mapM (fillRun ws edges fuel)

/-- The `for match in match_result["matches"]` loop of
`_get_travelled_way_segments`: `new_trace` is the run being accumulated,
`acc` the closed runs.  A point is resolved through
`edges[match["edge_index"]]` (`none` models the `IndexError` on an
out-of-range index); if its way is a key of `way_segments` the
`(way_id, segment_id)` pair extends the run, otherwise a non-empty run
is closed and the point dropped.  At the end a non-empty `new_trace` is
closed as well. -/
def splitLoop (edges : List Edge) (ws : WaySegments) :
    List MatchPoint → List (Nat × Int) → List (List (Nat × Int)) →
    Option (List (List (Nat × Int)))
  | [], new_trace, acc =>
    some (if new_trace.isEmpty then acc else acc ++ [new_trace])
  | m :: ms, new_trace, acc =>
    match edges.get? m.edge_index with
    | none => none
    | some e =>
      match lookupWay ws e.way_id with
      | some segs =>
        splitLoop edges ws ms
          (new_trace ++ [(e.way_id, _get_segment_id_by_ratio m.edge_ratio segs)]) acc
      | none =>
        if new_trace.isEmpty then splitLoop edges ws ms [] acc
        else splitLoop edges ws ms [] (acc ++ [new_trace])

/-- `_get_travelled_way_segments`: split the match points into runs and
fill the gaps of each run. -/
def _get_travelled_way_segments (mr : MatchResult) (ws : WaySegments) (fuel : Nat) :
    Option (List (List (Nat × Int))) :=
  (splitLoop mr.edges ws mr.match_points [] []).bind
    (fun runs => _fill_in_missing_segments runs mr.edges ws fuel)

/-- `map_match_result_to_osm_way_segments`: validate the ordering, then
compute the travelled way segments (the printed coverage trace); on an
invalid match result only an error is logged and no trace is produced. -/
def map_match_result_to_osm_way_segments (ws : WaySegments) (mr : MatchResult)
    (fuel : Nat) : Option (List (List (Nat × Int))) :=
  if _is_valid_match_result mr then _get_travelled_way_segments mr ws fuel
  else none

/-! ## Segment aggregator (src/db/import_osm_highways.py) -/

/-- One node row fetched by `WayAggregationWorker._get_way_data`. -/
structure NodeData where
  lon : ℚ
  lat : ℚ
deriving DecidableEq, Inhabited, Repr

/-- `WayAggregationWorker._compute_segments`: pairwise distances between
consecutive nodes, `[compute_distance(node_data[i], node_data[i+1]) for i
in range(len(node_data) - 1)]`.  The geopy great-circle distance is kept
abstract as `dist`. -/
def _compute_segments (dist : NodeData → NodeData → ℚ) (node_data : List NodeData) :
    List ℚ :=
  (List.range (node_data.length - 1)).map
    (fun i => dist (node_data.getD i default) (node_data.getD (i + 1) default))

/-- `WayAggregationWorker._create_way_lengths`: the appended
`(way_id, sum(segments))` row. -/
def _create_way_lengths (way_id : Nat) (segments : List ℚ) : Nat × ℚ :=
  (way_id, segments.sum)

/-- One row appended by `WayAggregationWorker._create_way_segments`. -/
structure SegmentRow where
  way_id : Nat
  segment_id : Nat
  length : ℚ
  way_length_ratio : ℚ
deriving DecidableEq, Repr

/-- The `for idx, segment in enumerate(segments)` loop of
`_create_way_segments`, carrying `idx` and `accumulated_length`.  The
division `accumulated_length / way_length` is unguarded in the source;
`none` models the `ZeroDivisionError` Python raises when `way_length`
is `0` (which therefore occurs exactly when the loop body runs at least
once with a zero total). -/
def segRowsLoop (way_id : Nat) (way_length : ℚ) :
    Nat → ℚ → List ℚ → Option (List SegmentRow)
  | _, _, [] => some []
  | idx, acc, seg :: rest =>
    if way_length = 0 then none
    else (segRowsLoop way_id way_length (idx + 1) (acc + seg) rest).map
      (⟨way_id, idx, seg, acc / way_length⟩ :: ·)

/-- `WayAggregationWorker._create_way_segments`: the rows appended for
one way, `(way_id, idx, segment, accumulated_length / way_length)`. -/
def _create_way_segments (way_id : Nat) (segments : List ℚ) :
    Option (List SegmentRow) :=
  segRowsLoop way_id segments.sum 0 0 segments

/-! ## Specification-side predicates -/

/-- Strict lexicographic order on `(edge_index, edge_ratio)` keys, as the
spec words the ordering-validation condition. -/
def lexLt (p q : Nat × ℚ) : Prop :=
  p.1 < q.1 ∨ (p.1 = q.1 ∧ p.2 < q.2)

/-! ## Helper lemmas -/

theorem consecAll_short (f : α → α → Bool) (l : List α) (h : l.length < 2) :
    consecAll f l = true := by
  cases l with
  | nil => rfl
  | cons a t =>
    cases t with
    | nil => rfl
    | cons b t2 => simp only [List.length_cons] at h; omega

theorem is_less_iff (p q : Nat × ℚ) : is_less p q = true ↔ lexLt p q := by
  simp [is_less, lexLt, Bool.or_eq_true, Bool.and_eq_true, decide_eq_true_eq, beq_iff_eq]

theorem consecAll_is_less_iff_chain (l : List (Nat × ℚ)) :
    consecAll is_less l = true ↔ List.Chain' lexLt l := by
  induction l with
  | nil => simp [consecAll]
  | cons a t ih =>
    cases t with
    | nil => simp [consecAll]
    | cons b t2 =>
      rw [consecAll, Bool.and_eq_true, is_less_iff, List.chain'_cons, ih]

theorem findIdx?_way_eq (edges : List Edge) (cur : Nat) (i : Nat) (hi : i < edges.length)
    (hway : (edges.get ⟨i, hi⟩).way_id = cur)
    (hmin : ∀ j (hj : j < i), (edges.get ⟨j, hj.trans hi⟩).way_id ≠ cur) :
    edges.findIdx? (fun e => e.way_id == cur) = some i := by
  rw [List.findIdx?_eq_some_iff_getElem]
  refine ⟨hi, by simpa using hway, ?_⟩
  intro j hj
  simpa using hmin j hj

/-! ## Claims -/

/-- C10: a match result with fewer than two match points passes
`_is_valid_match_result` regardless of its edges or field values, so
reconciliation never aborts with a validation error on such inputs. -/
theorem short_match_result_always_valid (mr : MatchResult)
    (h : mr.match_points.length < 2) : _is_valid_match_result mr = true := by
  unfold _is_valid_match_result
  exact consecAll_short _ _ (by simpa using h)

/-- Witness for C10 at a one-point match result. -/
theorem short_match_result_always_valid_witness :
    _is_valid_match_result (MatchResult.mk [] [⟨0, 0⟩]) = true :=
  short_match_result_always_valid (MatchResult.mk [] [⟨0, 0⟩]) (by decide)

/-- C3: ordering validation succeeds iff the `(edge_index, edge_ratio)`
keys of the match points are strictly increasing lexicographically, and
when it fails `map_match_result_to_osm_way_segments` produces no trace
at all. -/
theorem ordering_validation_characterisation (mr : MatchResult) :
    (_is_valid_match_result mr = true ↔
      List.Chain' lexLt (mr.match_points.map fun m => (m.edge_index, m.edge_ratio))) ∧
    (∀ ws fuel, _is_valid_match_result mr = false →
      map_match_result_to_osm_way_segments ws mr fuel = none) := by
  refine ⟨consecAll_is_less_iff_chain _, fun ws fuel h => ?_⟩
  simp [map_match_result_to_osm_way_segments, h]

/-- Witness for C3 at a match result with a repeated key. -/
theorem ordering_validation_characterisation_witness :
    map_match_result_to_osm_way_segments []
      (MatchResult.mk [] [⟨0, 0⟩, ⟨0, 0⟩]) 1 = none :=
  (ordering_validation_characterisation (MatchResult.mk [] [⟨0, 0⟩, ⟨0, 0⟩])).2
    [] 1 (by decide)

/-- C2 counterexample: when the current way's first occurrence is the
last edge, `_get_next_way` raises `IndexError` (modelled `none`) instead
of returning `None` (modelled `some none`), and gap filling for a run
that needs that lookup aborts with the exception instead of stopping
cleanly. -/
theorem next_way_last_edge_counterexample :
    _get_next_way 7 [⟨7⟩] = none ∧
    _get_next_way 7 [⟨7⟩] ≠ some none ∧
    _fill_in_missing_segments [[(5, 0), (5, 1)]] [⟨5⟩] [(5, [⟨1, 0⟩])] 5 = none := by
  refine ⟨rfl, by decide, by decide⟩

/-- C2 (amended): when an edge follows the first edge whose `way_id`
equals the current way, `_get_next_way` returns that edge's `way_id`;
when the first occurrence is the last edge it raises `IndexError`
(modelled `none`) rather than returning `None`; it returns `None`
(modelled `some none`) only when the current way occurs on no edge. -/
theorem next_way_first_occurrence (edges : List Edge) (cur : Nat) :
    (∀ i (hi : i < edges.length), (edges.get ⟨i, hi⟩).way_id = cur →
      (∀ j (hj : j < i), (edges.get ⟨j, hj.trans hi⟩).way_id ≠ cur) →
      (∀ e, edges.get? (i + 1) = some e →
        _get_next_way cur edges = some (some e.way_id)) ∧
      (i + 1 = edges.length → _get_next_way cur edges = none)) ∧
    ((∀ e ∈ edges, e.way_id ≠ cur) → _get_next_way cur edges = some none) := by
  constructor
  · intro i hi hway hmin
    have hfind := findIdx?_way_eq edges cur i hi hway hmin
    constructor
    · intro e he
      rw [List.get?_eq_getElem?] at he
      simp [_get_next_way, hfind, he]
    · intro hlast
      simp only [_get_next_way, hfind, List.get?_eq_getElem?]
      rw [List.getElem?_eq_none (by omega)]
      rfl
  · intro habs
    have hfind : edges.findIdx? (fun e => e.way_id == cur) = none := by
      rw [List.findIdx?_eq_none_iff]
      intro e he
      simpa using habs e he
    simp [_get_next_way, hfind]

theorem segIdxLoop_eq_takeWhile (r : ℚ) (segs : List WaySegment) :
    ∀ idx : Int, segIdxLoop r idx segs =
      idx + ((segs.takeWhile (fun s => s.ratio ≤ r)).length : Int) - 1 := by
  induction segs with
  | nil => intro idx; simp [segIdxLoop]
  | cons s rest ih =>
    intro idx
    by_cases h : r < s.ratio
    · rw [List.takeWhile_cons_of_neg (by simpa using not_le.mpr h)]
      simp only [segIdxLoop, if_pos h]
      simp
    · rw [List.takeWhile_cons_of_pos (by simpa using not_lt.mp h)]
      simp only [segIdxLoop, if_neg h, ih]
      push_cast [List.length_cons]
      ring

theorem get_takeWhile_holds (p : WaySegment → Bool) (segs : List WaySegment) (k : Nat)
    (hk : k < (segs.takeWhile p).length) (hk2 : k < segs.length) :
    p (segs.get ⟨k, hk2⟩) = true := by
  have h1 : segs = segs.takeWhile p ++ segs.dropWhile p :=
    (List.takeWhile_append_dropWhile p segs).symm
  have h2 : segs.get ⟨k, hk2⟩ = (segs.takeWhile p).get ⟨k, hk⟩ := by
    rw [List.get_eq_getElem, List.get_eq_getElem, List.getElem_of_eq h1]
    exact List.getElem_append_left hk
  rw [h2]
  exact List.mem_takeWhile_imp ((segs.takeWhile p).get_mem _ _)

theorem get_at_takeWhile_length_fails (p : WaySegment → Bool) (segs : List WaySegment)
    (h : (segs.takeWhile p).length < segs.length) :
    p (segs.get ⟨(segs.takeWhile p).length, h⟩) = false := by
  have h1 : segs = segs.takeWhile p ++ segs.dropWhile p :=
    (List.takeWhile_append_dropWhile p segs).symm
  have hlen : (segs.takeWhile p).length + (segs.dropWhile p).length = segs.length := by
    rw [← List.length_append, ← h1]
  have hD : segs.dropWhile p ≠ [] := by
    intro hD
    rw [hD, List.length_nil] at hlen
    omega
  have h2 : segs.get ⟨(segs.takeWhile p).length, h⟩ = (segs.dropWhile p).head hD := by
    rw [List.get_eq_getElem, List.getElem_of_eq h1]
    rw [List.getElem_append_right (Nat.le_refl _)]
    simp only [Nat.sub_self]
    exact List.getElem_zero _
  rw [h2]
  exact List.head_dropWhile_not p segs hD

/-- C4: for a non-empty ordered segment list whose first `start_ratio` is
`0.0` and a ratio in `[0,1)`, `_get_segment_id_by_ratio` returns exactly
the index of the segment with the greatest `start_ratio` not exceeding
the ratio (closed-open ownership: a ratio equal to a boundary maps to
the segment starting there); a ratio at or past every entry yields the
last index. -/
theorem segment_lookup_greatest (r : ℚ) (segs : List WaySegment)
    (hne : segs ≠ [])
    (hsorted : List.Pairwise (fun s t : WaySegment => s.ratio ≤ t.ratio) segs)
    (h0 : (segs.head hne).ratio = 0)
    (hr0 : 0 ≤ r) (hr1 : r < 1) :
    ∃ i : Fin segs.length,
      _get_segment_id_by_ratio r segs = ((i : Nat) : Int) ∧
      (segs.get i).ratio ≤ r ∧
      ∀ j : Fin segs.length, (segs.get j).ratio ≤ r → (j : Nat) ≤ (i : Nat) := by
  have htle : (segs.takeWhile (fun s => s.ratio ≤ r)).length ≤ segs.length :=
    (List.takeWhile_sublist _).length_le
  have ht1 : 1 ≤ (segs.takeWhile (fun s => s.ratio ≤ r)).length := by
    cases segs with
    | nil => exact absurd rfl hne
    | cons s0 rest =>
      have hs0 : s0.ratio ≤ r := by
        have : s0.ratio = 0 := h0
        rw [this]; exact hr0
      rw [List.takeWhile_cons_of_pos (by simpa using hs0)]
      simp
  refine ⟨⟨(segs.takeWhile (fun s => s.ratio ≤ r)).length - 1, by omega⟩, ?_, ?_, ?_⟩
  · show segIdxLoop r 0 segs = _
    rw [segIdxLoop_eq_takeWhile r segs 0]
    push_cast [Nat.cast_sub ht1]
    ring
  · have := get_takeWhile_holds (fun s => s.ratio ≤ r) segs
      ((segs.takeWhile (fun s => s.ratio ≤ r)).length - 1) (by omega) (by omega)
    simpa using this
  · intro j hj
    by_contra hcon
    have hcon2 : ¬ (j : Nat) ≤ (segs.takeWhile (fun s => s.ratio ≤ r)).length - 1 := hcon
    have htlt : (segs.takeWhile (fun s => s.ratio ≤ r)).length ≤ (j : Nat) := by omega
    have htlen : (segs.takeWhile (fun s => s.ratio ≤ r)).length < segs.length :=
      lt_of_le_of_lt htlt j.isLt
    have hfail : r < (segs.get ⟨(segs.takeWhile (fun s => s.ratio ≤ r)).length, htlen⟩).ratio := by
      have := get_at_takeWhile_length_fails (fun s => s.ratio ≤ r) segs htlen
      simpa [not_le] using this
    rcases Nat.eq_or_lt_of_le htlt with heq | hlt
    · have : segs.get ⟨(segs.takeWhile (fun s => s.ratio ≤ r)).length, htlen⟩ = segs.get j := by
        congr 1
        exact Fin.ext heq
      rw [this] at hfail
      exact absurd hj (not_le.mpr hfail)
    · have hmono := List.pairwise_iff_getElem.mp hsorted
        ((segs.takeWhile (fun s => s.ratio ≤ r)).length) (j : Nat) htlen j.isLt hlt
      rw [List.get_eq_getElem] at hfail hj
      exact absurd hj (not_le.mpr (lt_of_lt_of_le hfail hmono))

/-- Witness for C4: ratios `[0, 1/2]` with lookup ratio `3/4`. -/
theorem segment_lookup_greatest_witness :
    ∃ i : Fin ([⟨1, 0⟩, ⟨1, 1/2⟩] : List WaySegment).length,
      _get_segment_id_by_ratio (3/4) [⟨1, 0⟩, ⟨1, 1/2⟩] = ((i : Nat) : Int) ∧
      (([⟨1, 0⟩, ⟨1, 1/2⟩] : List WaySegment).get i).ratio ≤ 3/4 ∧
      ∀ j : Fin ([⟨1, 0⟩, ⟨1, 1/2⟩] : List WaySegment).length,
        (([⟨1, 0⟩, ⟨1, 1/2⟩] : List WaySegment).get j).ratio ≤ 3/4 →
          (j : Nat) ≤ (i : Nat) :=
  segment_lookup_greatest (3/4) [⟨1, 0⟩, ⟨1, 1/2⟩] (by decide)
    (by norm_num) (by norm_num) (by norm_num) (by norm_num)

/-- Witness for C2 (amended): the three behaviours at concrete inputs. -/
theorem next_way_first_occurrence_witness :
    _get_next_way 1 [⟨1⟩, ⟨2⟩] = some (some 2) ∧
    _get_next_way 2 [⟨1⟩, ⟨2⟩] = none ∧
    _get_next_way 3 [⟨1⟩, ⟨2⟩] = some none := by
  refine ⟨?_, ?_, ?_⟩
  · exact ((next_way_first_occurrence [⟨1⟩, ⟨2⟩] 1).1 0 (by decide) rfl
      (fun j hj => absurd hj (Nat.not_lt_zero j))).1 ⟨2⟩ rfl
  · exact ((next_way_first_occurrence [⟨1⟩, ⟨2⟩] 2).1 1 (by decide) rfl
      (by decide)).2 rfl
  · exact (next_way_first_occurrence [⟨1⟩, ⟨2⟩] 3).2 (by decide)

/-- The rows `_create_way_segments` appends when no exception occurs:
`(way_id, idx, seg, acc / way_length)` with the running accumulated
length. -/
def segRowsSpec (way_id : Nat) (way_length : ℚ) :
    Nat → ℚ → List ℚ → List SegmentRow
  | _, _, [] => []
  | idx, acc, seg :: rest =>
    ⟨way_id, idx, seg, acc / way_length⟩ ::
      segRowsSpec way_id way_length (idx + 1) (acc + seg) rest

theorem segRowsLoop_eq_spec (w : Nat) (total : ℚ) (h : total ≠ 0) :
    ∀ segs idx acc, segRowsLoop w total idx acc segs =
      some (segRowsSpec w total idx acc segs) := by
  intro segs
  induction segs with
  | nil => intro idx acc; rfl
  | cons s rest ih =>
    intro idx acc
    simp only [segRowsLoop, if_neg h, ih, segRowsSpec, Option.map_some']

theorem segRowsSpec_map_length (w : Nat) (total : ℚ) :
    ∀ segs idx acc, (segRowsSpec w total idx acc segs).map SegmentRow.length = segs := by
  intro segs
  induction segs with
  | nil => intro idx acc; rfl
  | cons s rest ih =>
    intro idx acc
    simp only [segRowsSpec, List.map_cons, ih]

theorem segRowsSpec_ratios_chain (w : Nat) (total : ℚ) (hpos : 0 < total) :
    ∀ segs idx acc, (∀ s ∈ segs, 0 ≤ s) →
      List.Chain' (· ≤ ·)
        ((segRowsSpec w total idx acc segs).map SegmentRow.way_length_ratio) := by
  intro segs
  induction segs with
  | nil => intro idx acc _; simp [segRowsSpec]
  | cons s rest ih =>
    intro idx acc hnn
    have hrest : ∀ x ∈ rest, 0 ≤ x := fun x hx => hnn x (List.mem_cons_of_mem s hx)
    rw [segRowsSpec, List.map_cons, List.chain'_cons']
    refine ⟨?_, ih (idx + 1) (acc + s) hrest⟩
    intro b hb
    cases rest with
    | nil => simp [segRowsSpec] at hb
    | cons s2 r2 =>
      simp only [segRowsSpec, List.map_cons, List.head?_cons, Option.mem_def,
        Option.some.injEq] at hb
      subst hb
      exact (div_le_div_iff_of_pos_right hpos).mpr
        (le_add_of_nonneg_right (hnn s (List.mem_cons_self _ _)))

theorem segRowsSpec_length (w : Nat) (total : ℚ) :
    ∀ segs idx acc, (segRowsSpec w total idx acc segs).length = segs.length := by
  intro segs
  induction segs with
  | nil => intro idx acc; rfl
  | cons s rest ih =>
    intro idx acc
    simp only [segRowsSpec, List.length_cons, ih]

theorem create_way_segments_zero_sum (w : Nat) (segs : List ℚ) (hne : segs ≠ [])
    (hsum : segs.sum = 0) : _create_way_segments w segs = none := by
  cases segs with
  | nil => exact absurd rfl hne
  | cons s rest => simp [_create_way_segments, segRowsLoop, hsum]

/-- C8: for a way of at least two nodes whose pairwise node distances are
all zero, `_create_way_segments` divides the accumulated length by the
zero total way length and raises `ZeroDivisionError` (modelled `none`);
with a positive total the row construction always succeeds, so the
aggregation is total exactly under that precondition. -/
theorem zero_total_length_crash (dist : NodeData → NodeData → ℚ)
    (nodes : List NodeData) (way_id : Nat)
    (hN : 2 ≤ nodes.length)
    (hz : ∀ s ∈ _compute_segments dist nodes, s = 0) :
    _create_way_segments way_id (_compute_segments dist nodes) = none ∧
    ∀ segments : List ℚ, 0 < segments.sum →
      (_create_way_segments way_id segments).isSome = true := by
  constructor
  · have hlen : (_compute_segments dist nodes).length = nodes.length - 1 := by
      simp [_compute_segments]
    apply create_way_segments_zero_sum
    · intro hnil
      rw [hnil] at hlen
      simp only [List.length_nil] at hlen
      omega
    · exact List.sum_eq_zero hz
  · intro segments hpos
    unfold _create_way_segments
    rw [segRowsLoop_eq_spec way_id segments.sum (ne_of_gt hpos) segments 0 0]
    rfl

/-- Witness for C8 at two coincident nodes. -/
theorem zero_total_length_crash_witness :
    _create_way_segments 1 (_compute_segments (fun _ _ => 0) [⟨0, 0⟩, ⟨0, 0⟩]) = none ∧
    ∀ segments : List ℚ, 0 < segments.sum →
      (_create_way_segments 1 segments).isSome = true :=
  zero_total_length_crash (fun _ _ => 0) [⟨0, 0⟩, ⟨0, 0⟩] 1 (by decide)
    (by intro s hs; simpa [_compute_segments] using hs)

/-- C5 counterexample: a way of N = 2 nodes at pairwise distance zero
has one computed distance but `_create_way_segments` raises
`ZeroDivisionError` (modelled `none`), so no segment row — and hence no
`start_ratio` sequence beginning at 0.0 — is produced, contrary to the
claim's unconditional N-1 segments. -/
theorem aggregator_zero_length_counterexample :
    _compute_segments (fun _ _ => 0) [⟨0, 0⟩, ⟨0, 0⟩] = [0] ∧
    _create_way_segments 1 (_compute_segments (fun _ _ => 0) [⟨0, 0⟩, ⟨0, 0⟩]) = none := by
  have hc : _compute_segments (fun _ _ => 0) [⟨0, 0⟩, ⟨0, 0⟩] = [0] := rfl
  refine ⟨hc, ?_⟩
  apply create_way_segments_zero_sum
  · rw [hc]
    simp
  · rw [hc]
    simp

/-- C5 (amended): for a way of N ≥ 2 nodes whose total length is
**positive**, the aggregator computes exactly N-1 pairwise distances with
`length_km[i]` the distance between nodes i and i+1, and the produced
rows have a non-decreasing `start_ratio` sequence beginning at 0.0 whose
`length_km` entries sum to the recorded total way length.  (Without the
positivity precondition the row construction divides by zero, see the
counterexample.) -/
theorem aggregator_segment_rows (dist : NodeData → NodeData → ℚ)
    (nodes : List NodeData) (way_id : Nat)
    (hN : 2 ≤ nodes.length)
    (hnn : ∀ a b, 0 ≤ dist a b)
    (hpos : 0 < (_compute_segments dist nodes).sum) :
    (_compute_segments dist nodes).length = nodes.length - 1 ∧
    (∀ i, i < nodes.length - 1 →
      (_compute_segments dist nodes).getD i 0 =
        dist (nodes.getD i default) (nodes.getD (i + 1) default)) ∧
    ∃ rows, _create_way_segments way_id (_compute_segments dist nodes) = some rows ∧
      rows.length = nodes.length - 1 ∧
      rows.map SegmentRow.length = _compute_segments dist nodes ∧
      (rows.map SegmentRow.way_length_ratio).head? = some 0 ∧
      List.Chain' (· ≤ ·) (rows.map SegmentRow.way_length_ratio) ∧
      (rows.map SegmentRow.length).sum =
        (_create_way_lengths way_id (_compute_segments dist nodes)).2 := by
  have hlen : (_compute_segments dist nodes).length = nodes.length - 1 := by
    simp [_compute_segments]
  have hmem : ∀ s ∈ _compute_segments dist nodes, 0 ≤ s := by
    intro s hs
    simp only [_compute_segments, List.mem_map] at hs
    obtain ⟨i, _, rfl⟩ := hs
    exact hnn _ _
  refine ⟨hlen, ?_, ?_⟩
  · intro i hi
    have hilt : i < (_compute_segments dist nodes).length := by omega
    rw [List.getD_eq_getElem _ _ hilt]
    simp [_compute_segments, List.getElem_map, List.getElem_range]
  · refine ⟨segRowsSpec way_id (_compute_segments dist nodes).sum 0 0
      (_compute_segments dist nodes), ?_, ?_, ?_, ?_, ?_, ?_⟩
    · exact segRowsLoop_eq_spec way_id _ (ne_of_gt hpos) _ 0 0
    · rw [segRowsSpec_length]
      exact hlen
    · exact segRowsSpec_map_length _ _ _ 0 0
    · cases hseg : _compute_segments dist nodes with
      | nil => rw [hseg] at hpos; simp at hpos
      | cons s rest => simp [segRowsSpec, zero_div]
    · exact segRowsSpec_ratios_chain way_id _ hpos _ 0 0 hmem
    · rw [segRowsSpec_map_length _ _ _ 0 0]
      rfl

/-- Witness for C5 (amended): three collinear nodes at unit spacing. -/
theorem aggregator_segment_rows_witness :
    (_compute_segments (fun _ _ => 1) [⟨0, 0⟩, ⟨1, 0⟩, ⟨2, 0⟩]).length =
      ([⟨0, 0⟩, ⟨1, 0⟩, ⟨2, 0⟩] : List NodeData).length - 1 ∧
    (∀ i, i < ([⟨0, 0⟩, ⟨1, 0⟩, ⟨2, 0⟩] : List NodeData).length - 1 →
      (_compute_segments (fun _ _ => 1) [⟨0, 0⟩, ⟨1, 0⟩, ⟨2, 0⟩]).getD i 0 =
        (fun _ _ => (1 : ℚ)) (([⟨0, 0⟩, ⟨1, 0⟩, ⟨2, 0⟩] : List NodeData).getD i default)
          (([⟨0, 0⟩, ⟨1, 0⟩, ⟨2, 0⟩] : List NodeData).getD (i + 1) default)) ∧
    ∃ rows, _create_way_segments 9
        (_compute_segments (fun _ _ => 1) [⟨0, 0⟩, ⟨1, 0⟩, ⟨2, 0⟩]) = some rows ∧
      rows.length = ([⟨0, 0⟩, ⟨1, 0⟩, ⟨2, 0⟩] : List NodeData).length - 1 ∧
      rows.map SegmentRow.length =
        _compute_segments (fun _ _ => 1) [⟨0, 0⟩, ⟨1, 0⟩, ⟨2, 0⟩] ∧
      (rows.map SegmentRow.way_length_ratio).head? = some 0 ∧
      List.Chain' (· ≤ ·) (rows.map SegmentRow.way_length_ratio) ∧
      (rows.map SegmentRow.length).sum =
        (_create_way_lengths 9 (_compute_segments (fun _ _ => 1)
          [⟨0, 0⟩, ⟨1, 0⟩, ⟨2, 0⟩])).2 :=
  aggregator_segment_rows (fun _ _ => 1) [⟨0, 0⟩, ⟨1, 0⟩, ⟨2, 0⟩] 9
    (by decide) (fun a b => by norm_num)
    (by norm_num [_compute_segments, List.range_succ])

/-- Strict adjacency of consecutive run entries, exactly as the gap-fill
walk advances: the next pair is the same way's next segment index while
still within the way's segment count, or segment `0` of the way that
`_get_next_way` resolves once the current way's indices are exhausted.
Identical pairs are excluded (`p ≠ q`). -/
def adjacentPair (ws : WaySegments) (edges : List Edge) (p q : Nat × Int) : Prop :=
  p ≠ q ∧ ∃ segs, lookupWay ws p.1 = some segs ∧
    ((q = (p.1, p.2 + 1) ∧ p.2 + 1 ≤ (segs.length : Int) - 1) ∨
     ((segs.length : Int) - 1 < p.2 + 1 ∧
       _get_next_way p.1 edges = some (some q.1) ∧ q.2 = 0))

theorem fillStep_adjacent (ws : WaySegments) (edges : List Edge) (p q : Nat × Int)
    (h : adjacentPair ws edges p q) : fillStep ws edges p = some q := by
  obtain ⟨hne, segs, hseg, hcase⟩ := h
  simp only [fillStep, hseg]
  rcases hcase with ⟨hq, hle⟩ | ⟨hgt, hnext, hq0⟩
  · rw [if_neg (not_lt.mpr hle), hq]
  · rw [if_pos hgt]
    simp only [hnext]
    rw [show ((q.1, (0 : Int)) : Nat × Int) = q from by
      rw [← hq0]]

theorem fillLoop_adjacent (ws : WaySegments) (edges : List Edge) (p q : Nat × Int)
    (h : adjacentPair ws edges p q) (fuel : Nat) (hf : 2 ≤ fuel) :
    fillLoop ws edges q fuel p = some [q] := by
  obtain ⟨f, rfl⟩ : ∃ f, fuel = f + 2 := ⟨fuel - 2, by omega⟩
  simp only [fillLoop, if_neg h.1, fillStep_adjacent ws edges p q h]
  simp

theorem fillRunAux_chain (ws : WaySegments) (edges : List Edge) (fuel : Nat)
    (hf : 2 ≤ fuel) :
    ∀ (rest : List (Nat × Int)) (cur : Nat × Int),
      List.Chain (adjacentPair ws edges) cur rest →
      fillRunAux ws edges fuel cur rest = some rest := by
  intro rest
  induction rest with
  | nil => intro cur _; rfl
  | cons seg rest2 ih =>
    intro cur hchain
    rw [List.chain_cons] at hchain
    obtain ⟨hadj, hchain2⟩ := hchain
    simp only [fillRunAux, fillLoop_adjacent ws edges cur seg hadj fuel hf,
      ih seg hchain2]
    simp

/-- C1 (amended): gap filling returns a run unchanged when each
consecutive pair of entries is strictly adjacent (the next segment of the
same way, or segment 0 of the way following it in the edge list) — but a
consecutive *identical* pair is collapsed to a single entry, so
idempotence holds only for runs without adjacent duplicates. -/
theorem fill_leaves_contiguous_run_unchanged (ws : WaySegments) (edges : List Edge)
    (fuel : Nat) (run : List (Nat × Int)) (hf : 2 ≤ fuel)
    (hchain : List.Chain' (adjacentPair ws edges) run) :
    fillRun ws edges fuel run = some run := by
  cases run with
  | nil => rfl
  | cons first rest =>
    have hc : List.Chain (adjacentPair ws edges) first rest := hchain
    simp only [fillRun, fillRunAux_chain ws edges fuel hf rest first hc,
      Option.map_some']

/-- C1 counterexample: a run made of an identical consecutive pair — a
contiguous run in the claim's sense — is not returned unchanged: the
duplicate entry is dropped. -/
theorem fill_deduplicates_identical_pairs :
    fillRun [(1, [⟨1, 0⟩])] [⟨1⟩] 5 [(1, 0), (1, 0)] = some [(1, 0)] ∧
    some [((1 : Nat), (0 : Int))] ≠ some [(1, 0), (1, 0)] := by
  exact ⟨by decide, by decide⟩

/-- Witness for C1 (amended): a strictly adjacent run over two ways is
returned unchanged. -/
theorem fill_leaves_contiguous_run_unchanged_witness :
    fillRun [(1, [⟨1, 0⟩, ⟨1, 1⟩]), (2, [⟨1, 0⟩])] [⟨1⟩, ⟨2⟩] 2
      [(1, 0), (1, 1), (2, 0)] = some [(1, 0), (1, 1), (2, 0)] := by
  apply fill_leaves_contiguous_run_unchanged _ _ _ _ (le_refl 2)
  show List.Chain (adjacentPair _ _) (1, 0) [(1, 1), (2, 0)]
  refine List.Chain.cons ?_ (List.Chain.cons ?_ List.Chain.nil)
  · exact ⟨by decide, [⟨1, 0⟩, ⟨1, 1⟩], rfl, Or.inl ⟨by decide, by decide⟩⟩
  · exact ⟨by decide, [⟨1, 0⟩, ⟨1, 1⟩], rfl, Or.inr ⟨by decide, rfl, rfl⟩⟩

/-- C7: when consecutive observed pairs cross a way boundary — the
previous pair is the last segment of way `W1`, the next pair is segment 0
of `W2`, and the edge list records `W2` immediately after the first
occurrence of `W1` — gap filling rolls over to `(W2, 0)` and never emits
a `W1` pair with a segment index beyond `W1`'s last segment. -/
theorem fill_rollover_no_spurious_segment (ws : WaySegments) (edges : List Edge)
    (fuel : Nat) (W1 W2 : Nat) (segs1 : List WaySegment) (i : Nat)
    (hf : 2 ≤ fuel)
    (hseg : lookupWay ws W1 = some segs1)
    (hW : W1 ≠ W2)
    (hi : i < edges.length)
    (hway : (edges.get ⟨i, hi⟩).way_id = W1)
    (hmin : ∀ j (hj : j < i), (edges.get ⟨j, hj.trans hi⟩).way_id ≠ W1)
    (hi2 : i + 1 < edges.length)
    (hnext : (edges.get ⟨i + 1, hi2⟩).way_id = W2) :
    fillRun ws edges fuel [(W1, (segs1.length : Int) - 1), (W2, 0)] =
      some [(W1, (segs1.length : Int) - 1), (W2, 0)] ∧
    ∀ out, fillRun ws edges fuel [(W1, (segs1.length : Int) - 1), (W2, 0)] = some out →
      ∀ s : Int, (W1, s) ∈ out → s ≤ (segs1.length : Int) - 1 := by
  have hnw : _get_next_way W1 edges = some (some W2) := by
    have hfind := findIdx?_way_eq edges W1 i hi hway hmin
    have hget : edges.get? (i + 1) = some (edges.get ⟨i + 1, hi2⟩) :=
      List.get?_eq_get hi2
    rw [List.get?_eq_getElem?] at hget
    simp only [_get_next_way, hfind, List.get?_eq_getElem?, hget, Option.map_some']
    rw [hnext]
  have hadj : adjacentPair ws edges (W1, (segs1.length : Int) - 1) (W2, 0) := by
    refine ⟨?_, segs1, hseg, Or.inr ⟨by omega, hnw, rfl⟩⟩
    intro hc
    exact hW (congrArg Prod.fst hc)
  have hfill : fillRun ws edges fuel [(W1, (segs1.length : Int) - 1), (W2, 0)] =
      some [(W1, (segs1.length : Int) - 1), (W2, 0)] := by
    simp only [fillRun, fillRunAux_chain ws edges fuel hf [(W2, 0)] _
      (List.Chain.cons hadj List.Chain.nil), Option.map_some']
  refine ⟨hfill, ?_⟩
  intro out hout s hmem
  rw [hfill] at hout
  obtain rfl : [(W1, (segs1.length : Int) - 1), (W2, 0)] = out := by
    simpa using hout
  rcases List.mem_cons.mp hmem with h1 | h2
  · rw [Prod.mk.injEq] at h1
    omega
  · rcases List.mem_cons.mp h2 with h3 | h4
    · rw [Prod.mk.injEq] at h3
      exact absurd h3.1 hW
    · simp at h4

/-- Witness for C7: two single-segment ways, the edge list `[W1, W2]`. -/
theorem fill_rollover_no_spurious_segment_witness :
    fillRun [(1, [⟨1, 0⟩]), (2, [⟨1, 0⟩])] [⟨1⟩, ⟨2⟩] 2
      [(1, (([⟨(1 : ℚ), (0 : ℚ)⟩] : List WaySegment).length : Int) - 1), (2, 0)] =
      some [(1, (([⟨(1 : ℚ), (0 : ℚ)⟩] : List WaySegment).length : Int) - 1), (2, 0)] :=
  (fill_rollover_no_spurious_segment [(1, [⟨1, 0⟩]), (2, [⟨1, 0⟩])] [⟨1⟩, ⟨2⟩]
    2 1 2 [⟨1, 0⟩] 0 (le_refl 2) rfl (by decide) (by decide) rfl
    (fun j hj => absurd hj (Nat.not_lt_zero j)) (by decide) rfl).1

/-- Resolution of one tracked match point: the way of its referenced
edge together with the segment id — the pair the splitting loop appends
when the way is a key of the segment table. -/
def resolvePoint (edges : List Edge) (ws : WaySegments) (m : MatchPoint) :
    Option (Nat × Int) :=
  (edges.get? m.edge_index).bind fun e =>
    (lookupWay ws e.way_id).map fun segs =>
      (e.way_id, _get_segment_id_by_ratio m.edge_ratio segs)

theorem splitLoop_tracked (edges : List Edge) (ws : WaySegments) :
    ∀ (ms : List MatchPoint) (r : List (Nat × Int)),
      ms.mapM (resolvePoint edges ws) = some r →
      ∀ (rest : List MatchPoint) (nt : List (Nat × Int)) acc,
        splitLoop edges ws (ms ++ rest) nt acc = splitLoop edges ws rest (nt ++ r) acc := by
  intro ms
  induction ms with
  | nil =>
    intro r hr rest nt acc
    simp only [List.mapM_nil, pure, Option.some.injEq] at hr
    subst hr
    simp
  | cons m ms2 ih =>
    intro r hr rest nt acc
    cases hm : resolvePoint edges ws m with
    | none => rw [List.mapM_cons, hm] at hr; simp at hr
    | some a =>
      cases hms : ms2.mapM (resolvePoint edges ws) with
      | none => rw [List.mapM_cons, hm, hms] at hr; simp at hr
      | some as =>
        rw [List.mapM_cons, hm, hms] at hr
        simp at hr
        subst hr
        obtain ⟨e, he, segs, hsg, ha⟩ : ∃ e, edges.get? m.edge_index = some e ∧
            ∃ segs, lookupWay ws e.way_id = some segs ∧
              (e.way_id, _get_segment_id_by_ratio m.edge_ratio segs) = a := by
          simpa [resolvePoint, Option.bind_eq_some, Option.map_eq_some'] using hm
        rw [List.cons_append]
        simp only [splitLoop, he, hsg]
        rw [ih as hms rest _ acc, ← ha, List.append_assoc]
        rfl

theorem splitLoop_untracked (edges : List Edge) (ws : WaySegments) (m : MatchPoint)
    (e : Edge) (he : edges.get? m.edge_index = some e)
    (hu : lookupWay ws e.way_id = none) (ms : List MatchPoint)
    (nt : List (Nat × Int)) (hnt : nt ≠ []) (acc : List (List (Nat × Int))) :
    splitLoop edges ws (m :: ms) nt acc = splitLoop edges ws ms [] (acc ++ [nt]) := by
  simp only [splitLoop, he, hu]
  rw [if_neg (by simpa using hnt)]

theorem splitLoop_nil_flush (edges : List Edge) (ws : WaySegments)
    (nt : List (Nat × Int)) (hnt : nt ≠ []) (acc : List (List (Nat × Int))) :
    splitLoop edges ws [] nt acc = some (acc ++ [nt]) := by
  rw [splitLoop, if_neg (by simpa using hnt)]

theorem mapM_option_length (f : α → Option β) :
    ∀ (l : List α) (out : List β), l.mapM f = some out → out.length = l.length := by
  intro l
  induction l with
  | nil =>
    intro out h
    simp only [List.mapM_nil, pure, Option.some.injEq] at h
    subst h
    rfl
  | cons a t ih =>
    intro out h
    cases ha : f a with
    | none => rw [List.mapM_cons, ha] at h; simp at h
    | some b =>
      cases ht : t.mapM f with
      | none => rw [List.mapM_cons, ha, ht] at h; simp at h
      | some bs =>
        rw [List.mapM_cons, ha, ht] at h
        simp at h
        subst h
        simp [ih bs ht]

theorem mapM_option_mem (f : α → Option β) :
    ∀ (l : List α) (out : List β), l.mapM f = some out →
      ∀ b ∈ out, ∃ a ∈ l, f a = some b := by
  intro l
  induction l with
  | nil =>
    intro out h
    simp only [List.mapM_nil, pure, Option.some.injEq] at h
    subst h
    simp
  | cons a t ih =>
    intro out h
    cases ha : f a with
    | none => rw [List.mapM_cons, ha] at h; simp at h
    | some b =>
      cases ht : t.mapM f with
      | none => rw [List.mapM_cons, ha, ht] at h; simp at h
      | some bs =>
        rw [List.mapM_cons, ha, ht] at h
        simp at h
        subst h
        intro c hc
        rcases List.mem_cons.mp hc with rfl | hc2
        · exact ⟨a, List.mem_cons_self _ _, ha⟩
        · obtain ⟨x, hx, hfx⟩ := ih bs ht c hc2
          exact ⟨x, List.mem_cons_of_mem a hx, hfx⟩

/-- C6: during run splitting, a match point resolved to a way absent
from the segment table closes the current non-empty run and later
tracked points start a new one: tracked points, one untracked point,
then tracked points produce exactly the two runs, and gap filling maps
them to exactly two runs in the coverage trace. -/
theorem untracked_way_splits_runs (edges : List Edge) (ws : WaySegments)
    (ms1 ms2 : List MatchPoint) (bad : MatchPoint) (e : Edge)
    (r1 r2 : List (Nat × Int)) (fuel : Nat)
    (h1 : ms1.mapM (resolvePoint edges ws) = some r1) (hne1 : r1 ≠ [])
    (hbe : edges.get? bad.edge_index = some e)
    (hbu : lookupWay ws e.way_id = none)
    (h2 : ms2.mapM (resolvePoint edges ws) = some r2) (hne2 : r2 ≠ []) :
    splitLoop edges ws (ms1 ++ bad :: ms2) [] [] = some [r1, r2] ∧
    ∀ out, _fill_in_missing_segments [r1, r2] edges ws fuel = some out →
      out.length = 2 := by
  constructor
  · rw [splitLoop_tracked edges ws ms1 r1 h1 (bad :: ms2) [] [], List.nil_append,
      splitLoop_untracked edges ws bad e hbe hbu ms2 r1 hne1 []]
    have hms2 : ms2 = ms2 ++ [] := (List.append_nil ms2).symm
    rw [hms2, splitLoop_tracked edges ws ms2 r2 h2 [] [] ([] ++ [r1])]
    simp only [List.nil_append]
    rw [splitLoop_nil_flush edges ws r2 hne2 [r1]]
    rfl
  · intro out hout
    simpa using mapM_option_length (fillRun ws edges fuel) [r1, r2] out hout

/-- Witness for C6: two tracked points, one point on an unknown way,
two more tracked points — two runs. -/
theorem untracked_way_splits_runs_witness :
    splitLoop [⟨1⟩, ⟨2⟩] [(1, [⟨1, 0⟩])]
      ([⟨0, 0⟩, ⟨0, 1⟩] ++ (⟨1, 0⟩ : MatchPoint) :: [⟨0, 2⟩, ⟨0, 3⟩]) [] [] =
      some [[(1, 0), (1, 0)], [(1, 0), (1, 0)]] ∧
    ∀ out, _fill_in_missing_segments [[(1, 0), (1, 0)], [(1, 0), (1, 0)]]
        [⟨1⟩, ⟨2⟩] [(1, [⟨1, 0⟩])] 3 = some out → out.length = 2 :=
  untracked_way_splits_runs [⟨1⟩, ⟨2⟩] [(1, [⟨1, 0⟩])]
    [⟨0, 0⟩, ⟨0, 1⟩] [⟨0, 2⟩, ⟨0, 3⟩] ⟨1, 0⟩ ⟨2⟩
    [(1, 0), (1, 0)] [(1, 0), (1, 0)] 3
    (by decide) (by decide) (by decide) (by decide) (by decide) (by decide)

theorem splitLoop_runs_nonempty (edges : List Edge) (ws : WaySegments) :
    ∀ (ms : List MatchPoint) (nt : List (Nat × Int))
      (acc runs : List (List (Nat × Int))),
      splitLoop edges ws ms nt acc = some runs →
      (∀ r ∈ acc, r ≠ []) → ∀ r ∈ runs, r ≠ [] := by
  intro ms
  induction ms with
  | nil =>
    intro nt acc runs h hacc
    rw [splitLoop] at h
    by_cases hnt : nt.isEmpty = true
    · rw [if_pos hnt] at h
      obtain rfl := Option.some.inj h
      exact hacc
    · rw [if_neg hnt] at h
      obtain rfl := Option.some.inj h
      intro r hr
      rcases List.mem_append.mp hr with hr1 | hr2
      · exact hacc r hr1
      · rw [List.mem_singleton] at hr2
        subst hr2
        simpa using hnt
  | cons m ms2 ih =>
    intro nt acc runs h hacc
    rw [splitLoop] at h
    split at h
    · exact absurd h (by simp)
    · split at h
      · exact ih _ _ _ h hacc
      · split at h
        next => exact ih _ _ _ h hacc
        next hnt =>
          refine ih _ _ _ h fun r hr => ?_
          rcases List.mem_append.mp hr with hr1 | hr2
          · exact hacc r hr1
          · rw [List.mem_singleton] at hr2
            subst hr2
            simpa using hnt

theorem fillRun_ne_nil (ws : WaySegments) (edges : List Edge) (fuel : Nat)
    (run out : List (Nat × Int)) (hrun : run ≠ [])
    (h : fillRun ws edges fuel run = some out) : out ≠ [] := by
  cases run with
  | nil => exact absurd rfl hrun
  | cons first rest =>
    rw [fillRun] at h
    cases haux : fillRunAux ws edges fuel first rest with
    | none => rw [haux] at h; simp at h
    | some tail =>
      rw [haux, Option.map_some'] at h
      obtain rfl := Option.some.inj h
      simp

/-- C9: every run of an emitted coverage trace is non-empty: splitting
only closes non-empty runs, and gap filling keeps at least the first
pair of each run. -/
theorem emitted_runs_nonempty (ws : WaySegments) (mr : MatchResult) (fuel : Nat)
    (trace : List (List (Nat × Int)))
    (h : map_match_result_to_osm_way_segments ws mr fuel = some trace) :
    ∀ run ∈ trace, run ≠ [] := by
  rw [map_match_result_to_osm_way_segments] at h
  by_cases hv : _is_valid_match_result mr
  · rw [if_pos hv, _get_travelled_way_segments] at h
    cases hs : splitLoop mr.edges ws mr.match_points [] [] with
    | none => rw [hs] at h; simp at h
    | some runs =>
      rw [hs, Option.some_bind] at h
      intro run hrun
      obtain ⟨r, hr, hfill⟩ :=
        mapM_option_mem (fillRun ws mr.edges fuel) runs trace h run hrun
      exact fillRun_ne_nil ws mr.edges fuel r run
        (splitLoop_runs_nonempty mr.edges ws mr.match_points [] [] runs hs
          (by simp) r hr) hfill
  · rw [if_neg hv] at h
    simp at h

/-- Witness for C9 at a one-point match result. -/
theorem emitted_runs_nonempty_witness : ([(1, 0)] : List (Nat × Int)) ≠ [] :=
  emitted_runs_nonempty [(1, [⟨1, 0⟩])] ⟨[⟨1⟩], [⟨0, 0⟩]⟩ 2 [[(1, 0)]]
    (by decide) [(1, 0)] (by decide)

end RoadCoverage
